import Mathlib

/-!
Verification of the Hearthstone-AI search engine (src/alphabot/MCTS.py and
src/alphabot/Game.py) against its natural-language specification.

The Python code is shallowly embedded: the feature encoding of a game state and
its string fingerprint are collapsed into one key type `SKey` (the fingerprint
`state.tostring()` is injective on fixed-length int32 encodings); the statistics
dictionaries of the `MCTS` class become function maps `κ → Option α`; float
arithmetic on probabilities and values is modelled over `ℚ`, and the
square-root/power expressions of the UCB score and of the temperature reweighting
over `ℝ`; the fireplace rule engine, the neural oracle and the RNG are opaque
parameters (an `Env` structure, permutation parameters for `random.shuffle`,
abstract call outcomes for the exception analysis).
-/

namespace HSAI

/-- Fingerprint key: stands for both the 263-entry feature encoding produced by
`YEET.getState` and its `tostring()` fingerprint (`YEET.stringRepresentation`). -/
abbrev SKey := ℕ

/-- An action is a pair `(a, b)` indexing the fixed 21 x 18 action grid
(`YEET.getValidMoves` builds a `np.zeros((21,18))` mask). -/
abbrev HAction := Fin 21 × Fin 18

/-- `EPS = 1e-8` from MCTS.py line 7. -/
noncomputable def EPS : ℝ := 1 / 100000000

/-- Dictionary update: `m[k] = v` on a function map. -/
def upd {κ α : Type _} [DecidableEq κ] (m : κ → Option α) (k : κ) (v : α) :
    κ → Option α :=
  fun k' => if k' = k then some v else m k'

@[simp] lemma upd_same {κ α : Type _} [DecidableEq κ] (m : κ → Option α)
    (k : κ) (v : α) : upd m k v k = some v := by
  simp [upd]

@[simp] lemma upd_other {κ α : Type _} [DecidableEq κ] (m : κ → Option α)
    (k k' : κ) (v : α) (h : k' ≠ k) : upd m k v k' = m k' := by
  simp [upd, h]

/-- The statistics store of the `MCTS` class (MCTS.py lines 19-25): `Qsa`, `Nsa`,
`Ns`, `Ps`, `Es`, `Vs`, all keyed by the state fingerprint (and the action for
the edge tables). -/
structure Stats where
  Qsa : SKey × HAction → Option ℚ
  Nsa : SKey × HAction → Option ℕ
  Ns : SKey → Option ℕ
  Ps : SKey → Option (Fin 21 → Fin 18 → ℚ)
  Es : SKey → Option ℚ
  Vs : SKey → Option (Fin 21 → Fin 18 → Bool)

/-- The store as initialized in `MCTS.__init__`: all dictionaries empty. -/
def emptyStats : Stats :=
  { Qsa := fun _ => none, Nsa := fun _ => none, Ns := fun _ => none,
    Ps := fun _ => none, Es := fun _ => none, Vs := fun _ => none }

/-- Row-major enumeration of the action grid, `for a in range(21): for b in
range(18)` (MCTS.py lines 112-113, also the comprehension in `getActionProb`
line 41). -/
def gridCells : List HAction :=
  (List.finRange 21).flatMap fun a => (List.finRange 18).map fun b => (a, b)

/-! ## Game.py: `getGameEnded` (lines 215-238), claim C10 -/

/-- The slice of the fireplace game object that `YEET.getGameEnded` reads and
writes: the starting player's `playstate` (4 = won, 5 = lost, 6 = tied), the
turn counter, and the `ended` flag. -/
structure FGame where
  playstate : ℕ
  turn : ℕ
  ended : Bool
deriving DecidableEq

/-- `YEET.getGameEnded` (Game.py lines 215-238).  Returns the (possibly
mutated) game instance together with the returned reward; `0.0001 = 1/10000`. -/
def getGameEnded (g : FGame) : FGame × ℚ :=
  if g.playstate = 4 then (g, 1)
  else if g.playstate = 5 then (g, -1)
  else if g.playstate = 6 then (g, 1 / 10000)
  else if 180 < g.turn then ({ g with ended := true }, 1 / 10000)
  else (g, 0)

/-! ## MCTS.py: `cloneAndRandomize` (lines 51-72), claim C7 -/

/-- The cards of one fireplace player that determinization touches: the hand
and the remaining deck, as lists of card identities. -/
structure PlayerSt where
  hand : List ℕ
  deck : List ℕ
deriving DecidableEq

/-- The slice of the game object that `cloneAndRandomize` reads: the acting
(current) player and the opponent. -/
structure GameSt where
  currentPlayer : PlayerSt
  opponent : PlayerSt
deriving DecidableEq

/-- `MCTS.cloneAndRandomize` (MCTS.py lines 51-72): deep-copies the game and
shuffles the opponent's hand and deck in place.  The two `random.shuffle` calls
are modelled by the permutation-producing parameters `shuffleH`, `shuffleD`. -/
def cloneAndRandomize (shuffleH shuffleD : List ℕ → List ℕ) (g : GameSt) :
    GameSt :=
  { currentPlayer := g.currentPlayer,
    opponent := { hand := shuffleH g.opponent.hand,
                  deck := shuffleD g.opponent.deck } }

/-! ## Game.py: `performAction` / `getNextState` exception flow (lines 78-103 and
159-212), claims C6, C8, C9 -/

/-- Exceptions that the fireplace rule engine can raise out of the engine call
dispatched by `performAction` (`card.play`, `minion.attack`, `power.use`,
`choice.choose`, including the `IndexError` from indexing the slot or target). -/
inductive EngineExn
  | invalidAction
  | indexError
  | gameOver
deriving DecidableEq

/-- Exceptions that can traverse the alphabot code itself: the three engine
exceptions plus the repo's own `UnhandledAction`. -/
inductive PyExn
  | invalidAction
  | indexError
  | gameOver
  | unhandledAction
deriving DecidableEq

/-- The `except` handlers of `performAction` (Game.py lines 198-212) applied to
the outcome of a dispatched engine call.  `endTurn` models `player.game.end_turn()`:
it mutates the game and reports whether it raised `GameOver` (the only exception
fireplace's `end_turn` raises; the source's own `except IndexError` handler
guards exactly against it).
- `except InvalidAction`: calls `end_turn()`; a `GameOver` raised there leaves
  `performAction` uncaught;
- `except IndexError`: `try: end_turn() except GameOver: pass`;
- `except GameOver`: `pass`. -/
def handleCall {G : Type _} (endTurn : G → G × Bool) :
    G × Option EngineExn → G × Option PyExn
  | (g, none) => (g, none)
  | (g, some .invalidAction) =>
      let r := endTurn g
      (r.1, if r.2 then some .gameOver else none)
  | (g, some .indexError) => ((endTurn g).1, none)
  | (g, some .gameOver) => (g, none)

/-- `YEET.performAction` (Game.py lines 159-212).  `call` is the engine call the
`if/elif` chain dispatches for the given slot (its partial mutation of the game
plus its optional exception); `slot` is `a[0]`, `choice` is the truthiness of
`player.choice`, `ended` is `game_instance.ended`.  Returns the resulting game
together with the exception propagating out of `performAction`, if any
(`UnhandledAction` is re-raised by its handler, line 198-201). -/
def performActionM {G : Type _} (call : G → G × Option EngineExn)
    (endTurn : G → G × Bool) (slot : ℤ) (choice ended : Bool) (g : G) :
    G × Option PyExn :=
  if ended then (g, none)
  else if 0 ≤ slot ∧ slot ≤ 9 then handleCall endTurn (call g)
  else if 10 ≤ slot ∧ slot ≤ 16 then handleCall endTurn (call g)
  else if slot = 17 then handleCall endTurn (call g)
  else if slot = 18 then handleCall endTurn (call g)
  else if slot = 19 then ((endTurn g).1, none)
  else if slot = 20 ∧ choice = false then ((endTurn g).1, none)
  else if choice = true then handleCall endTurn (call g)
  else (g, some .unhandledAction)

/-- `YEET.getNextState` (Game.py lines 78-103): performs the action under a
`try ... except GameOver: pass`, then returns the new encoding together with
`player` if `a[0] != 19` and `-player` otherwise. -/
def getNextStateM {G : Type _} (call : G → G × Option EngineExn)
    (endTurn : G → G × Bool) (player slot : ℤ) (choice ended : Bool) (g : G) :
    Except PyExn (G × ℤ) :=
  let r := performActionM call endTurn slot choice ended g
  match r.2 with
  | some .gameOver => .ok (r.1, if slot ≠ 19 then player else -player)
  | some e => .error e
  | none => .ok (r.1, if slot ≠ 19 then player else -player)

/-- Outcome of one apply-action step inside `MCTS.search`. -/
inductive StepOutcome (G : Type _)
  | advanced : G → ℤ → StepOutcome G
  | breakLoop : StepOutcome G
  | exn : PyExn → StepOutcome G

/-- One apply-action step of `MCTS.search`: both the selection phase (MCTS.py
lines 123-129) and the rollout phase (lines 155-161) wrap `getNextState` in
`try ... except GameOver: break`; any other exception propagates out of
`search`. -/
def searchApplyM {G : Type _} (call : G → G × Option EngineExn)
    (endTurn : G → G × Bool) (player slot : ℤ) (choice ended : Bool) (g : G) :
    StepOutcome G :=
  match getNextStateM call endTurn player slot choice ended g with
  | .ok gp => .advanced gp.1 gp.2
  | .error .gameOver => .breakLoop
  | .error e => .exn e

/-- The slot/choice configurations for which the `if/elif` chain of
`performAction` dispatches a rule-engine call (as opposed to `end_turn`, or to
no handled branch at all). -/
def dispatchesCall (slot : ℤ) (choice : Bool) : Prop :=
  (0 ≤ slot ∧ slot ≤ 9) ∨ (10 ≤ slot ∧ slot ≤ 16) ∨ slot = 17 ∨ slot = 18 ∨
    (¬(0 ≤ slot ∧ slot ≤ 9) ∧ ¬(10 ≤ slot ∧ slot ≤ 16) ∧ slot ≠ 17 ∧
      slot ≠ 18 ∧ slot ≠ 19 ∧ ¬(slot = 20 ∧ choice = false) ∧ choice = true)

instance (slot : ℤ) (choice : Bool) : Decidable (dispatchesCall slot choice) := by
  unfold dispatchesCall; infer_instance

/-- The exception component leaving `performAction` is always `none`, `GameOver`
or the repo's own `UnhandledAction`: every rule-engine exception raised by the
dispatched call is handled in place. -/
lemma performActionM_exn {G : Type _} (call : G → G × Option EngineExn)
    (endTurn : G → G × Bool) (slot : ℤ) (choice ended : Bool) (g : G) :
    (performActionM call endTurn slot choice ended g).2 = none ∨
    (performActionM call endTurn slot choice ended g).2 = some .gameOver ∨
    (performActionM call endTurn slot choice ended g).2 = some .unhandledAction := by
  have hc : ∀ r : G × Option EngineExn,
      (handleCall endTurn r).2 = none ∨ (handleCall endTurn r).2 = some .gameOver := by
    rintro ⟨g1, (_ | e)⟩
    · exact Or.inl rfl
    · cases e with
      | invalidAction =>
          simp only [handleCall]
          cases (endTurn g1).2 <;> simp
      | indexError => exact Or.inl rfl
      | gameOver => exact Or.inl rfl
  unfold performActionM
  split_ifs <;>
    first
      | exact Or.inl rfl
      | exact Or.inr (Or.inr rfl)
      | exact (hc (call g)).elim Or.inl (fun h => Or.inr (Or.inl h))

/-- Counterexample to claim C6 as stated: a hand-card action (slot 0) rejected
by the rule engine with `InvalidAction` does *not* truncate path extension.
`performAction`'s handler ends the turn on the post-rejection state and
returns normally, so the apply-action step of the selection loop yields the
loop-continuing outcome `.advanced` (here: post-rejection state `1`, end-turn
transition `+7`, same acting player `1`), not the `break` of MCTS.py lines
127-129 -- the only way lines 123-133 ever stop path extension.  The loop
therefore executes `path.append((s, best_act, player))` at line 131 with the
rejected edge and continues selecting/expanding instead of proceeding to
backpropagation at that point. -/
theorem C6_counterexample :
    searchApplyM (G := ℕ) (fun g => (g + 1, some EngineExn.invalidAction))
      (fun g => (g + 7, false)) 1 0 false false 0 =
      StepOutcome.advanced 8 1 ∧
    StepOutcome.advanced (8 : ℕ) (1 : ℤ) ≠ StepOutcome.breakLoop := by
  exact ⟨rfl, fun hc => StepOutcome.noConfusion hc⟩

/-- Claim C6 (amended): no rule-engine exception raised while applying an
action during the selection or rollout phase of `MCTS.search`
(`InvalidAction`, `IndexError` from indexing a slot or target, `GameOver`)
ever propagates out of the apply-action step: `performAction` handles them
(Game.py lines 198-212), `getNextState` additionally catches `GameOver`
(lines 92-95), and the search loops catch `GameOver` once more (MCTS.py lines
123-129 and 155-161).  But the simulation does not truncate on a rejection:
the step always completes as `.advanced` (so the selection loop appends the
rejected edge at line 131 and keeps iterating, and the rollout loop keeps
rolling) -- the `break` of lines 127-129 is unreachable -- unless the slot
falls outside every handled branch, in which case the repo's own
`UnhandledAction` (not a rule-engine exception) escapes. -/
theorem C6_rejection_handled_in_place {G : Type _}
    (call : G → G × Option EngineExn) (endTurn : G → G × Bool)
    (player slot : ℤ) (choice ended : Bool) (g : G) :
    ((∃ g' p', searchApplyM call endTurn player slot choice ended g =
        StepOutcome.advanced g' p') ∨
      searchApplyM call endTurn player slot choice ended g =
        StepOutcome.exn PyExn.unhandledAction) ∧
    searchApplyM call endTurn player slot choice ended g ≠ .exn .invalidAction ∧
    searchApplyM call endTurn player slot choice ended g ≠ .exn .indexError ∧
    searchApplyM call endTurn player slot choice ended g ≠ .exn .gameOver ∧
    searchApplyM call endTurn player slot choice ended g ≠
      StepOutcome.breakLoop := by
  have hmain :
      (∃ g' p', searchApplyM call endTurn player slot choice ended g =
        StepOutcome.advanced g' p') ∨
      searchApplyM call endTurn player slot choice ended g =
        StepOutcome.exn PyExn.unhandledAction := by
    unfold searchApplyM getNextStateM
    rcases performActionM_exn call endTurn slot choice ended g with h | h | h
    · simp only [h]
      exact Or.inl ⟨_, _, rfl⟩
    · simp only [h]
      exact Or.inl ⟨_, _, rfl⟩
    · simp only [h]
      exact Or.inr trivial
  have hexn : ∀ e : PyExn, e ≠ PyExn.unhandledAction →
      searchApplyM call endTurn player slot choice ended g ≠
        StepOutcome.exn e := by
    intro e he
    rcases hmain with ⟨g', p', h⟩ | h <;> rw [h]
    · exact fun hc => StepOutcome.noConfusion hc
    · exact fun hc => he (StepOutcome.noConfusion hc fun h1 => h1.symm)
  have hbrk : searchApplyM call endTurn player slot choice ended g ≠
      StepOutcome.breakLoop := by
    rcases hmain with ⟨g', p', h⟩ | h <;> rw [h] <;>
      exact fun hc => StepOutcome.noConfusion hc
  exact ⟨hmain, hexn _ (by decide), hexn _ (by decide), hexn _ (by decide),
    hbrk⟩

/-- Claim C8: the next acting player returned by `getNextState` flips sign
exactly for the end-turn slot 19 (Game.py lines 100-103).  Player identifiers
are `1` and `-1` (Game.py line 16). -/
theorem C8_next_player_flips_iff_end_turn {G : Type _}
    (call : G → G × Option EngineExn) (endTurn : G → G × Bool)
    (player slot : ℤ) (choice ended : Bool) (g : G)
    (hp : player = 1 ∨ player = -1) (g' : G) (p' : ℤ)
    (hres : getNextStateM call endTurn player slot choice ended g = .ok (g', p')) :
    (p' = -player ↔ slot = 19) ∧ (slot ≠ 19 → p' = player) := by
  have hp' : p' = if slot ≠ 19 then player else -player := by
    rcases hpa : performActionM call endTurn slot choice ended g with ⟨g2, e⟩
    rcases e with _ | e
    · simp only [getNextStateM, hpa, Except.ok.injEq, Prod.mk.injEq] at hres
      exact hres.2.symm
    · cases e with
      | gameOver =>
          simp only [getNextStateM, hpa, Except.ok.injEq, Prod.mk.injEq] at hres
          exact hres.2.symm
      | invalidAction => simp [getNextStateM, hpa] at hres
      | indexError => simp [getNextStateM, hpa] at hres
      | unhandledAction => simp [getNextStateM, hpa] at hres
  by_cases hs : slot = 19
  · subst hs
    simp only [ne_eq, not_true_eq_false, if_false] at hp'
    exact ⟨⟨fun _ => rfl, fun _ => hp'⟩, fun h => absurd rfl h⟩
  · simp only [ne_eq, hs, not_false_eq_true, if_true] at hp'
    subst hp'
    refine ⟨⟨fun h => ?_, fun h => absurd h hs⟩, fun _ => rfl⟩
    rcases hp with h1 | h1 <;> rw [h1] at h <;> norm_num at h

/-- Witness for C8 at the end-turn slot: with a no-exception engine the call
returns `-1` for input player `1` and slot `19`. -/
theorem C8_next_player_flips_iff_end_turn_witness :
    ((1 : ℤ) = 1 ∨ (1 : ℤ) = -1) ∧
    (getNextStateM (G := Unit) (fun g => (g, none)) (fun g => (g, false))
        1 19 false false () = .ok ((), -1)) ∧
    (((-1 : ℤ) = -(1 : ℤ) ↔ (19 : ℤ) = 19) ∧ ((19 : ℤ) ≠ 19 → (-1 : ℤ) = 1)) :=
  ⟨Or.inl rfl, rfl,
    C8_next_player_flips_iff_end_turn (G := Unit) (fun g => (g, none))
      (fun g => (g, false)) 1 19 false false () (Or.inl rfl) () (-1) rfl⟩

/-- Claim C9: when the rule engine rejects the dispatched call with
`InvalidAction` or `IndexError`, `performAction` neither re-raises the
rejection nor rolls the state back: the handler calls `player.game.end_turn()`
on the post-rejection state, so the returned game is the end-turn transition
applied to it (Game.py lines 202-210) -- a rejected action still mutates the
game state. -/
theorem C9_rejection_ends_turn {G : Type _} (call : G → G × Option EngineExn)
    (endTurn : G → G × Bool) (slot : ℤ) (choice : Bool) (g g1 : G)
    (e : EngineExn) (hcall : call g = (g1, some e))
    (hre : e = .invalidAction ∨ e = .indexError)
    (hdispatch : dispatchesCall slot choice) :
    (performActionM call endTurn slot choice false g).1 = (endTurn g1).1 ∧
    (performActionM call endTurn slot choice false g).2 ≠ some .invalidAction ∧
    (performActionM call endTurn slot choice false g).2 ≠ some .indexError := by
  have hh : (handleCall endTurn (call g)).1 = (endTurn g1).1 ∧
      (handleCall endTurn (call g)).2 ≠ some .invalidAction ∧
      (handleCall endTurn (call g)).2 ≠ some .indexError := by
    rw [hcall]
    rcases hre with h | h <;> subst h <;> simp only [handleCall]
    · cases (endTurn g1).2 <;> simp
    · simp
  unfold performActionM
  rcases hdispatch with h | h | h | h | h
  · simp only [if_neg (Bool.false_ne_true), if_pos h]; exact hh
  · have h0 : ¬(0 ≤ slot ∧ slot ≤ 9) := by omega
    simp only [if_neg (Bool.false_ne_true), if_neg h0, if_pos h]; exact hh
  · have h0 : ¬(0 ≤ slot ∧ slot ≤ 9) := by omega
    have h1 : ¬(10 ≤ slot ∧ slot ≤ 16) := by omega
    simp only [if_neg (Bool.false_ne_true), if_neg h0, if_neg h1, if_pos h]
    exact hh
  · have h0 : ¬(0 ≤ slot ∧ slot ≤ 9) := by omega
    have h1 : ¬(10 ≤ slot ∧ slot ≤ 16) := by omega
    have h2 : slot ≠ 17 := by omega
    simp only [if_neg (Bool.false_ne_true), if_neg h0, if_neg h1, if_neg h2,
      if_pos h]
    exact hh
  · obtain ⟨h0, h1, h2, h3, h4, h5, h6⟩ := h
    simp only [if_neg (Bool.false_ne_true), if_neg h0, if_neg h1, if_neg h2,
      if_neg h3, if_neg h4, if_neg h5, if_pos h6]
    exact hh

/-- Witness for C9: a hand-card slot rejected with `InvalidAction` ends the
turn on the post-rejection state. -/
theorem C9_rejection_ends_turn_witness :
    ((fun g : ℕ => (g + 1, some EngineExn.invalidAction)) 0 =
      (1, some EngineExn.invalidAction)) ∧
    (EngineExn.invalidAction = EngineExn.invalidAction ∨
      EngineExn.invalidAction = EngineExn.indexError) ∧
    dispatchesCall 0 false ∧
    ((performActionM (fun g : ℕ => (g + 1, some EngineExn.invalidAction))
        (fun g => (g + 7, false)) 0 false false 0).1 = 8 ∧
      (performActionM (fun g : ℕ => (g + 1, some EngineExn.invalidAction))
        (fun g => (g + 7, false)) 0 false false 0).2 ≠ some .invalidAction ∧
      (performActionM (fun g : ℕ => (g + 1, some EngineExn.invalidAction))
        (fun g => (g + 7, false)) 0 false false 0).2 ≠ some .indexError) :=
  ⟨rfl, Or.inl rfl, by decide,
    C9_rejection_ends_turn (fun g : ℕ => (g + 1, some EngineExn.invalidAction))
      (fun g => (g + 7, false)) 0 false 0 1 EngineExn.invalidAction rfl
      (Or.inl rfl) (by decide)⟩

/-- Claim C7: determinization preserves the multiset of the opponent's cards
(`sorted(hand + deck)` is unchanged) and leaves the acting player's cards
untouched (MCTS.py lines 51-72: deep copy, then in-place shuffles of
`enemy.hand` and `enemy.deck` only). -/
theorem C7_determinize_preserves_multiset
    (shuffleH shuffleD : List ℕ → List ℕ) (g : GameSt)
    (hh : (shuffleH g.opponent.hand).Perm g.opponent.hand)
    (hd : (shuffleD g.opponent.deck).Perm g.opponent.deck) :
    ((cloneAndRandomize shuffleH shuffleD g).opponent.hand ++
        (cloneAndRandomize shuffleH shuffleD g).opponent.deck).Perm
      (g.opponent.hand ++ g.opponent.deck) ∧
    (cloneAndRandomize shuffleH shuffleD g).currentPlayer = g.currentPlayer :=
  ⟨hh.append hd, rfl⟩

/-- Witness for C7: reversing the opponent's hand `[3,4]` and deck `[5]`
preserves the combined multiset and the acting player. -/
theorem C7_determinize_preserves_multiset_witness :
    (List.reverse [3, 4]).Perm [3, 4] ∧ (List.reverse [5]).Perm [5] ∧
    (((cloneAndRandomize List.reverse List.reverse
          ⟨⟨[1], [2]⟩, ⟨[3, 4], [5]⟩⟩).opponent.hand ++
        (cloneAndRandomize List.reverse List.reverse
          ⟨⟨[1], [2]⟩, ⟨[3, 4], [5]⟩⟩).opponent.deck).Perm ([3, 4] ++ [5]) ∧
      (cloneAndRandomize List.reverse List.reverse
          ⟨⟨[1], [2]⟩, ⟨[3, 4], [5]⟩⟩).currentPlayer = ⟨[1], [2]⟩) :=
  ⟨by decide, by decide,
    C7_determinize_preserves_multiset List.reverse List.reverse
      ⟨⟨[1], [2]⟩, ⟨[3, 4], [5]⟩⟩ (by decide) (by decide)⟩

/-- Claim C10: `getGameEnded` is not a pure query.  If the turn counter exceeds
180 and the starting player's playstate is neither won (4), lost (5) nor
tied (6), the call sets the instance's `ended` flag and returns the draw value
`0.0001`; on every other input the instance is returned unchanged and the
reward is `1`, `-1`, `0.0001` or `0` according to the playstate
(Game.py lines 215-238). -/
theorem C10_getGameEnded_effect (g : FGame) :
    (g.playstate ≠ 4 → g.playstate ≠ 5 → g.playstate ≠ 6 → 180 < g.turn →
      getGameEnded g = ({ g with ended := true }, 1 / 10000)) ∧
    ((g.playstate = 4 ∨ g.playstate = 5 ∨ g.playstate = 6 ∨ g.turn ≤ 180) →
      (getGameEnded g).1 = g ∧
        (getGameEnded g).2 =
          if g.playstate = 4 then 1
          else if g.playstate = 5 then -1
          else if g.playstate = 6 then 1 / 10000
          else 0) := by
  constructor
  · intro h4 h5 h6 ht
    simp [getGameEnded, h4, h5, h6, ht]
  · intro h
    by_cases p4 : g.playstate = 4
    · simp [getGameEnded, p4]
    · by_cases p5 : g.playstate = 5
      · simp [getGameEnded, p4, p5]
      · by_cases p6 : g.playstate = 6
        · simp [getGameEnded, p4, p5, p6]
        · have ht : ¬180 < g.turn := by
            rcases h with h | h | h | h
            · exact absurd h p4
            · exact absurd h p5
            · exact absurd h p6
            · omega
          simp [getGameEnded, p4, p5, p6, ht]

/-- Witness for C10: a game at turn 200 with a neutral playstate is mutated to
`ended = true` and yields the draw value. -/
theorem C10_getGameEnded_effect_witness :
    getGameEnded ⟨0, 200, false⟩ = (⟨0, 200, true⟩, 1 / 10000) :=
  (C10_getGameEnded_effect ⟨0, 200, false⟩).1 (by decide) (by decide) (by decide)
    (by decide)

/-! ## MCTS.py: backpropagation (lines 165-177), claim C2 -/

/-- One iteration of the backpropagation loop (MCTS.py lines 167-177) on a
path entry `(s, a, player)`: if the edge is new, `Nsa[(s,a)] = 1` and
`Qsa[(s,a)] = 0`, else `Nsa[(s,a)] += 1`; then the value update reads the
*already incremented* count, adding `+v` when the recorded actor equals
`game_copy.player_to_start` and `-v` otherwise.  (`Nsa` and `Qsa` entries are
always created in pairs, so the `getD` defaults are never exercised by the
engine.) -/
def backpropStep (p2s : ℤ) (v : ℚ) (st : Stats) (e : SKey × HAction × ℤ) :
    Stats :=
  let key := (e.1, e.2.1)
  let nsa' :=
    if (st.Nsa key).isNone then upd st.Nsa key 1
    else upd st.Nsa key ((st.Nsa key).getD 0 + 1)
  let qsa1 := if (st.Nsa key).isNone then upd st.Qsa key 0 else st.Qsa
  let n : ℚ := (((nsa' key).getD 0 : ℕ) : ℚ)
  let q : ℚ := (qsa1 key).getD 0
  let qnew := if e.2.2 = p2s then (n * q + v) / (n + 1) else (n * q - v) / (n + 1)
  { st with Nsa := nsa', Qsa := upd qsa1 key qnew }

/-- The backpropagation loop `for ele in path:` (MCTS.py line 167). -/
def backprop (p2s : ℤ) (v : ℚ) (path : List (SKey × HAction × ℤ))
    (st : Stats) : Stats :=
  path.foldl (backpropStep p2s v) st

/-- The sign given to the backpropagated value for a path entry whose recorded
actor is `p`: `+v` when the actor is the root-perspective player
(`player_to_start`), `-v` otherwise. -/
def signedVal (p2s p : ℤ) (v : ℚ) : ℚ := if p = p2s then v else -v

/-- `k` simulations each backpropagating value `vᵢ` through the single edge
`(s, a)` with recorded actor `pᵢ`: the per-simulation backprop loop of
`MCTS.search` applied to the one-entry path, folded over the simulations. -/
def simsFold (p2s : ℤ) (s : SKey) (a : HAction) (sims : List (ℚ × ℤ))
    (st : Stats) : Stats :=
  sims.foldl (fun st ve => backprop p2s ve.1 [(s, a, ve.2)] st) st

/-- Backpropagation over a one-entry path is one backprop iteration. -/
lemma backprop_single (p2s : ℤ) (v : ℚ) (s : SKey) (a : HAction) (p : ℤ)
    (st : Stats) :
    backprop p2s v [(s, a, p)] st = backpropStep p2s v st (s, a, p) := rfl

/-- The backprop iteration always bumps the edge count by one (to `1` when the
edge is fresh, since the missing count reads as `0`). -/
lemma backpropStep_Nsa_eq (p2s : ℤ) (v : ℚ) (st : Stats) (s : SKey)
    (a : HAction) (p : ℤ) :
    (backpropStep p2s v st (s, a, p)).Nsa (s, a) =
      some ((st.Nsa (s, a)).getD 0 + 1) := by
  unfold backpropStep
  rcases h : st.Nsa (s, a) with _ | n <;> simp [h, upd]

/-- The backprop iteration leaves every other edge's count alone. -/
lemma backpropStep_Nsa_frame (p2s : ℤ) (v : ℚ) (st : Stats) (s : SKey)
    (a : HAction) (p : ℤ) (k : SKey × HAction) (hk : k ≠ (s, a)) :
    (backpropStep p2s v st (s, a, p)).Nsa k = st.Nsa k := by
  unfold backpropStep
  rcases h : st.Nsa (s, a) with _ | n <;> simp [h, upd, hk]

/-- Value stored by the backprop iteration on a fresh edge: the pair is
initialized to `Nsa = 1`, `Qsa = 0`, and the mean update then divides the
signed value by the incremented count plus one. -/
lemma backpropStep_Qsa_fresh (p2s : ℤ) (v : ℚ) (st : Stats) (s : SKey)
    (a : HAction) (p : ℤ) (h : st.Nsa (s, a) = none) :
    (backpropStep p2s v st (s, a, p)).Qsa (s, a) =
      some (signedVal p2s p v / 2) := by
  unfold backpropStep signedVal
  simp only [h, Option.isNone_none, if_true, upd, if_pos rfl,
    Option.getD_some]
  by_cases hp : p = p2s <;> simp [hp] <;> norm_num

/-- Value stored by the backprop iteration on an already-seen edge. -/
lemma backpropStep_Qsa_seen (p2s : ℤ) (v : ℚ) (st : Stats) (s : SKey)
    (a : HAction) (p : ℤ) (n : ℕ) (q : ℚ) (hn : st.Nsa (s, a) = some n)
    (hq : st.Qsa (s, a) = some q) :
    (backpropStep p2s v st (s, a, p)).Qsa (s, a) =
      some ((((n : ℚ) + 1) * q + signedVal p2s p v) / ((n : ℚ) + 1 + 1)) := by
  unfold backpropStep signedVal
  simp only [hn, Option.isNone_some, Bool.false_eq_true, if_false,
    Option.getD_some, upd_same, hq]
  by_cases hp : p = p2s
  · simp only [hp, if_pos rfl]
    congr 1
    push_cast
    ring
  · simp only [if_neg hp]
    congr 1
    push_cast
    ring

/-- Counterexample to claim C2: a single backpropagation of value `+1` through
a fresh edge (actor = root player) leaves `Qsa = 1/2`, not the arithmetic mean
`1` of the single backpropagated value: lines 169-175 increment `Nsa` *before*
the mean update, so the update divides by one more than the visit count. -/
theorem C2_counterexample :
    (backprop 1 1 [(0, ((19 : Fin 21), (1 : Fin 18)), 1)] emptyStats).Qsa
        (0, ((19 : Fin 21), (1 : Fin 18))) = some (1 / 2) ∧
    ((1 : ℚ) / 2) ≠ 1 := by
  constructor
  · rw [backprop_single, backpropStep_Qsa_fresh 1 1 emptyStats 0
      ((19 : Fin 21), (1 : Fin 18)) 1 rfl]
    norm_num [signedVal]
  · norm_num

/-- Invariant of the off-by-one running mean: if the edge carries count `n` and
value `S / (n+1)` (`S` the accumulated signed sum), folding further
simulations through it adds their count and their signed values. -/
lemma simsFold_inv (p2s : ℤ) (s : SKey) (a : HAction) :
    ∀ (sims : List (ℚ × ℤ)) (st : Stats) (n : ℕ) (S : ℚ),
      st.Nsa (s, a) = some n → st.Qsa (s, a) = some (S / ((n : ℚ) + 1)) →
      (simsFold p2s s a sims st).Nsa (s, a) = some (n + sims.length) ∧
      (simsFold p2s s a sims st).Qsa (s, a) =
        some ((S + (sims.map fun ve => signedVal p2s ve.2 ve.1).sum) /
          ((n : ℚ) + sims.length + 1)) := by
  intro sims
  induction sims with
  | nil =>
      intro st n S hN hQ
      simp only [simsFold, List.foldl_nil, List.map_nil, List.sum_nil,
        List.length_nil, Nat.cast_zero, add_zero, Nat.add_zero]
      exact ⟨hN, hQ⟩
  | cons ve rest ih =>
      intro st n S hN hQ
      have hn1 : ((n : ℚ) + 1) ≠ 0 := by positivity
      have hNs : (backprop p2s ve.1 [(s, a, ve.2)] st).Nsa (s, a) =
          some (n + 1) := by
        rw [backprop_single, backpropStep_Nsa_eq, hN]
        rfl
      have hQs : (backprop p2s ve.1 [(s, a, ve.2)] st).Qsa (s, a) =
          some ((S + signedVal p2s ve.2 ve.1) / ((n : ℚ) + 1 + 1)) := by
        rw [backprop_single, backpropStep_Qsa_seen p2s ve.1 st s a ve.2 n
          (S / ((n : ℚ) + 1)) hN hQ]
        congr 1
        rw [mul_div_cancel₀ _ hn1]
      have hrest := ih (backprop p2s ve.1 [(s, a, ve.2)] st) (n + 1)
        (S + signedVal p2s ve.2 ve.1) hNs (by rw [hQs]; congr 1; push_cast; ring)
      simp only [simsFold, List.foldl_cons] at hrest ⊢
      refine ⟨?_, ?_⟩
      · rw [hrest.1]; congr 1; simp [List.length_cons]; omega
      · rw [hrest.2]
        congr 1
        simp only [List.map_cons, List.sum_cons, List.length_cons]
        push_cast
        ring_nf

/-- Claim C2 (amended): for every simulation that traverses an edge `(s, a)`,
backpropagation increments `Nsa` by exactly one (initializing it to `1` with
`Qsa = 0` on first visit) and adds the signed value (`+v` when the recorded
actor equals the root-perspective player `player_to_start`, `-v` otherwise) to
the running aggregate -- but because the count is incremented *before* the mean
update (MCTS.py lines 169-175), after `k` traversals `Qsa` equals the signed
sum divided by `k + 1`, not the arithmetic mean (signed sum divided by `k`). -/
theorem C2_edge_stats (p2s : ℤ) (s : SKey) (a : HAction)
    (sims : List (ℚ × ℤ)) (st0 : Stats) (hne : sims ≠ [])
    (hN0 : st0.Nsa (s, a) = none) (hQ0 : st0.Qsa (s, a) = none) :
    (simsFold p2s s a sims st0).Nsa (s, a) = some sims.length ∧
    (simsFold p2s s a sims st0).Qsa (s, a) =
      some ((sims.map fun ve => signedVal p2s ve.2 ve.1).sum /
        ((sims.length : ℚ) + 1)) := by
  rcases sims with _ | ⟨ve, rest⟩
  · exact absurd rfl hne
  have hN1 : (backprop p2s ve.1 [(s, a, ve.2)] st0).Nsa (s, a) = some 1 := by
    rw [backprop_single, backpropStep_Nsa_eq, hN0]
    rfl
  have hQ1 : (backprop p2s ve.1 [(s, a, ve.2)] st0).Qsa (s, a) =
      some (signedVal p2s ve.2 ve.1 / ((1 : ℚ) + 1)) := by
    rw [backprop_single, backpropStep_Qsa_fresh p2s ve.1 st0 s a ve.2 hN0]
    norm_num
  have hrest := simsFold_inv p2s s a rest
    (backprop p2s ve.1 [(s, a, ve.2)] st0) 1 (signedVal p2s ve.2 ve.1)
    hN1 (by rw [hQ1]; norm_num)
  simp only [simsFold, List.foldl_cons] at hrest ⊢
  refine ⟨?_, ?_⟩
  · rw [hrest.1]; simp [List.length_cons, Nat.add_comm]
  · rw [hrest.2]
    congr 1
    simp only [List.map_cons, List.sum_cons, List.length_cons]
    push_cast
    ring_nf

/-- Witness for C2 (amended): two simulations through the same fresh edge, both
with the root actor, values `1` and `0`: the visit count reaches `2` and the
stored value is `(1 + 0) / 3`. -/
theorem C2_edge_stats_witness :
    ([((1 : ℚ), (1 : ℤ)), ((0 : ℚ), (1 : ℤ))] ≠ []) ∧
    (emptyStats.Nsa (0, ((19 : Fin 21), (1 : Fin 18))) = none) ∧
    (emptyStats.Qsa (0, ((19 : Fin 21), (1 : Fin 18))) = none) ∧
    ((simsFold 1 0 ((19 : Fin 21), (1 : Fin 18))
        [((1 : ℚ), (1 : ℤ)), ((0 : ℚ), (1 : ℤ))] emptyStats).Nsa
        (0, ((19 : Fin 21), (1 : Fin 18))) =
      some ([((1 : ℚ), (1 : ℤ)), ((0 : ℚ), (1 : ℤ))].length) ∧
      (simsFold 1 0 ((19 : Fin 21), (1 : Fin 18))
        [((1 : ℚ), (1 : ℤ)), ((0 : ℚ), (1 : ℤ))] emptyStats).Qsa
        (0, ((19 : Fin 21), (1 : Fin 18))) =
      some ((([((1 : ℚ), (1 : ℤ)), ((0 : ℚ), (1 : ℤ))].map
          fun ve => signedVal 1 ve.2 ve.1).sum) /
        (([((1 : ℚ), (1 : ℤ)), ((0 : ℚ), (1 : ℤ))].length : ℚ) + 1))) :=
  ⟨by decide, rfl, rfl,
    C2_edge_stats 1 0 ((19 : Fin 21), (1 : Fin 18))
      [((1 : ℚ), (1 : ℤ)), ((0 : ℚ), (1 : ℤ))] emptyStats (by decide) rfl rfl⟩

/-! ## MCTS.py: PUCT selection scan (lines 107-122), claim C3 -/

/-- The UCB score computed for a legal cell `(a, b)` (MCTS.py lines 115-118):
`Qsa + cpuct * Ps[s][a,b] * sqrt(Ns[s]) / (1 + Nsa[(s,a,b)])` when the edge is
in `Qsa`, else `cpuct * Ps[s][a,b] * sqrt(Ns[s] + EPS)`.  The source indexes
`Ps[s]`, `Ns[s]` and `Nsa[(s,(a,b))]` directly: the selection loop only runs
for `s in self.Ps` (and `Ps`/`Ns` are created together at expansion), and `Nsa`
holds a key whenever `Qsa` does (they are created in pairs during
backpropagation), so the `getD` defaults are never exercised by the engine. -/
noncomputable def uScore (cpuct : ℝ) (st : Stats) (s : SKey) (c : HAction) :
    ℝ :=
  match st.Qsa (s, c) with
  | some q => (q : ℝ) +
      cpuct * (((st.Ps s).getD (fun _ _ => 0) c.1 c.2 : ℚ) : ℝ) *
        Real.sqrt (((st.Ns s).getD 0 : ℕ) : ℝ) /
        (1 + (((st.Nsa (s, c)).getD 0 : ℕ) : ℝ))
  | none => cpuct * (((st.Ps s).getD (fun _ _ => 0) c.1 c.2 : ℚ) : ℝ) *
      Real.sqrt ((((st.Ns s).getD 0 : ℕ) : ℝ) + EPS)

section SelectFold

variable {A : Type _}

/-- Loop body of the selection scan (MCTS.py lines 114-122): cells masked
invalid are skipped; a valid cell replaces the running best exactly on a strict
improvement (`u > cur_best`).  The accumulator `none` plays the source's
initial `cur_best = -float('inf'), best_act = -1`: the first valid cell always
replaces it. -/
noncomputable def selStep (valids : A → Bool) (u : A → ℝ)
    (acc : Option (ℝ × A)) (c : A) : Option (ℝ × A) :=
  if valids c then
    match acc with
    | none => some (u c, c)
    | some (best, bc) => if best < u c then some (u c, c) else some (best, bc)
  else acc

lemma selStep_invalid (valids : A → Bool) (u : A → ℝ) (acc : Option (ℝ × A))
    (c : A) (h : valids c = false) : selStep valids u acc c = acc := by
  simp [selStep, h]

/-- Folding the scan body from an accumulator holding a valid cell `c0` yields
the first strict maximum among `c0` and the valid cells of the list. -/
lemma selFold_from_some (valids : A → Bool) (u : A → ℝ) (l : List A) :
    ∀ c0 : A, valids c0 = true →
    ∃ c, l.foldl (selStep valids u) (some (u c0, c0)) = some (u c, c) ∧
      valids c = true ∧
      (∀ c' ∈ l, valids c' = true → u c' ≤ u c) ∧
      (c = c0 ∨ ∃ l1 l2, l = l1 ++ c :: l2 ∧ u c0 < u c ∧
        ∀ c' ∈ l1, valids c' = true → u c' < u c) := by
  induction l with
  | nil =>
      intro c0 h0
      exact ⟨c0, rfl, h0, by simp, Or.inl rfl⟩
  | cons a t ih =>
      intro c0 h0
      by_cases ha : valids a = true
      · by_cases hlt : u c0 < u a
        · have hstep : selStep valids u (some (u c0, c0)) a = some (u a, a) := by
            simp [selStep, ha, hlt]
          obtain ⟨c, hc, hcv, hle, hsplit⟩ := ih a ha
          refine ⟨c, ?_, hcv, ?_, ?_⟩
          · rw [List.foldl_cons, hstep]; exact hc
          · intro c' hc' hv'
            rcases List.mem_cons.mp hc' with rfl | hmem
            · rcases hsplit with rfl | ⟨_, _, _, hgt, _⟩
              · exact le_refl _
              · exact le_of_lt hgt
            · exact hle c' hmem hv'
          · rcases hsplit with rfl | ⟨l1, l2, hteq, hgt, hstrict⟩
            · exact Or.inr ⟨[], t, rfl, hlt, by simp⟩
            · refine Or.inr ⟨a :: l1, l2, by rw [hteq]; rfl,
                lt_trans hlt hgt, ?_⟩
              intro c' hc' hv'
              rcases List.mem_cons.mp hc' with rfl | hmem
              · exact hgt
              · exact hstrict c' hmem hv'
        · have hstep : selStep valids u (some (u c0, c0)) a =
              some (u c0, c0) := by
            simp [selStep, ha, hlt]
          obtain ⟨c, hc, hcv, hle, hsplit⟩ := ih c0 h0
          refine ⟨c, ?_, hcv, ?_, ?_⟩
          · rw [List.foldl_cons, hstep]; exact hc
          · intro c' hc' hv'
            rcases List.mem_cons.mp hc' with rfl | hmem
            · have h1 : u c' ≤ u c0 := not_lt.mp hlt
              rcases hsplit with rfl | ⟨_, _, _, hgt, _⟩
              · exact h1
              · exact le_trans h1 (le_of_lt hgt)
            · exact hle c' hmem hv'
          · rcases hsplit with rfl | ⟨l1, l2, hteq, hgt, hstrict⟩
            · exact Or.inl rfl
            · refine Or.inr ⟨a :: l1, l2, by rw [hteq]; rfl, hgt, ?_⟩
              intro c' hc' hv'
              rcases List.mem_cons.mp hc' with rfl | hmem
              · exact lt_of_le_of_lt (not_lt.mp hlt) hgt
              · exact hstrict c' hmem hv'
      · have ha' : valids a = false := by simpa using ha
        have hstep : selStep valids u (some (u c0, c0)) a =
            some (u c0, c0) := selStep_invalid valids u _ a ha'
        obtain ⟨c, hc, hcv, hle, hsplit⟩ := ih c0 h0
        refine ⟨c, ?_, hcv, ?_, ?_⟩
        · rw [List.foldl_cons, hstep]; exact hc
        · intro c' hc' hv'
          rcases List.mem_cons.mp hc' with rfl | hmem
          · rw [hv'] at ha'; cases ha'
          · exact hle c' hmem hv'
        · rcases hsplit with rfl | ⟨l1, l2, hteq, hgt, hstrict⟩
          · exact Or.inl rfl
          · refine Or.inr ⟨a :: l1, l2, by rw [hteq]; rfl, hgt, ?_⟩
            intro c' hc' hv'
            rcases List.mem_cons.mp hc' with rfl | hmem
            · rw [hv'] at ha'; cases ha'
            · exact hstrict c' hmem hv'

/-- Folding the scan body over a list containing a valid cell yields the valid
cell with the maximal score, the first such cell in list order on ties. -/
lemma selFold_from_none (valids : A → Bool) (u : A → ℝ) (l : List A)
    (h : ∃ c ∈ l, valids c = true) :
    ∃ c, l.foldl (selStep valids u) none = some (u c, c) ∧
      valids c = true ∧
      (∀ c' ∈ l, valids c' = true → u c' ≤ u c) ∧
      ∃ l1 l2, l = l1 ++ c :: l2 ∧
        ∀ c' ∈ l1, valids c' = true → u c' < u c := by
  induction l with
  | nil => simp at h
  | cons a t ih =>
      by_cases ha : valids a = true
      · have hstep : selStep valids u none a = some (u a, a) := by
          simp [selStep, ha]
        obtain ⟨c, hc, hcv, hle, hsplit⟩ := selFold_from_some valids u t a ha
        refine ⟨c, ?_, hcv, ?_, ?_⟩
        · rw [List.foldl_cons, hstep]; exact hc
        · intro c' hc' hv'
          rcases List.mem_cons.mp hc' with rfl | hmem
          · rcases hsplit with rfl | ⟨_, _, _, hgt, _⟩
            · exact le_refl _
            · exact le_of_lt hgt
          · exact hle c' hmem hv'
        · rcases hsplit with rfl | ⟨l1, l2, hteq, hgt, hstrict⟩
          · exact ⟨[], t, rfl, by simp⟩
          · refine ⟨a :: l1, l2, by rw [hteq]; rfl, ?_⟩
            intro c' hc' hv'
            rcases List.mem_cons.mp hc' with rfl | hmem
            · exact hgt
            · exact hstrict c' hmem hv'
      · have ha' : valids a = false := by simpa using ha
        have hstep : selStep valids u none a = none :=
          selStep_invalid valids u _ a ha'
        have hex : ∃ c ∈ t, valids c = true := by
          rcases h with ⟨c, hcmem, hcv⟩
          rcases List.mem_cons.mp hcmem with rfl | hmem
          · rw [hcv] at ha'; cases ha'
          · exact ⟨c, hmem, hcv⟩
        obtain ⟨c, hc, hcv, hle, l1, l2, hteq, hstrict⟩ := ih hex
        refine ⟨c, ?_, hcv, ?_, a :: l1, l2, by rw [hteq]; rfl, ?_⟩
        · rw [List.foldl_cons, hstep]; exact hc
        · intro c' hc' hv'
          rcases List.mem_cons.mp hc' with rfl | hmem
          · rw [hv'] at ha'; cases ha'
          · exact hle c' hmem hv'
        · intro c' hc' hv'
          rcases List.mem_cons.mp hc' with rfl | hmem
          · rw [hv'] at ha'; cases ha'
          · exact hstrict c' hmem hv'

end SelectFold

/-- The full selection scan of MCTS.py lines 110-122: fold the loop body over
the row-major grid from `cur_best = -inf`. -/
noncomputable def selectBest (valids : Fin 21 → Fin 18 → Bool) (cpuct : ℝ)
    (st : Stats) (s : SKey) : Option (ℝ × HAction) :=
  gridCells.foldl (selStep (fun c => valids c.1 c.2) (uScore cpuct st s)) none

/-- Claim C3: for every legal action the selection phase scores it with
`U = Q(s,a) + cpuct * P(s,a) * sqrt(N(s)) / (1 + N(s,a))` when the edge has
been visited and `U = cpuct * P(s,a) * sqrt(N(s) + EPS)` otherwise (the
`uScore` of this development), and it picks the legal action maximizing `U`,
ties resolved in favor of the first cell of the row-major 21 x 18 scan
(strictly earlier legal cells score strictly less). -/
theorem C3_selection_ucb_argmax (cpuct : ℝ) (st : Stats) (s : SKey)
    (valids : Fin 21 → Fin 18 → Bool)
    (h : ∃ c ∈ gridCells, valids c.1 c.2 = true) :
    ∃ c, selectBest valids cpuct st s = some (uScore cpuct st s c, c) ∧
      valids c.1 c.2 = true ∧
      (∀ c' ∈ gridCells, valids c'.1 c'.2 = true →
        uScore cpuct st s c' ≤ uScore cpuct st s c) ∧
      ∃ l1 l2, gridCells = l1 ++ c :: l2 ∧
        ∀ c' ∈ l1, valids c'.1 c'.2 = true →
          uScore cpuct st s c' < uScore cpuct st s c := by
  obtain ⟨c, hc, hcv, hle, l1, l2, hteq, hstrict⟩ :=
    selFold_from_none (fun c : HAction => valids c.1 c.2)
      (uScore cpuct st s) gridCells h
  exact ⟨c, hc, hcv, hle, l1, l2, hteq, hstrict⟩

/-- Mask with the end-turn cell `(19, 1)` as the only legal action (the mask
`getValidMoves` produces for a choice-free state with an empty board and no
playable card). -/
def onlyEndTurn : Fin 21 → Fin 18 → Bool :=
  fun a b => decide (a.val = 19 ∧ b.val = 1)

set_option maxRecDepth 4000 in
/-- Witness for C3: on the mask with `(19, 1)` as the only legal cell, the scan
selects it with its UCB score, maximal among legal cells. -/
theorem C3_selection_ucb_argmax_witness :
    (∃ c ∈ gridCells, onlyEndTurn c.1 c.2 = true) ∧
    ∃ c, selectBest onlyEndTurn 1 emptyStats 0 =
        some (uScore 1 emptyStats 0 c, c) ∧
      onlyEndTurn c.1 c.2 = true ∧
      (∀ c' ∈ gridCells, onlyEndTurn c'.1 c'.2 = true →
        uScore 1 emptyStats 0 c' ≤ uScore 1 emptyStats 0 c) ∧
      ∃ l1 l2, gridCells = l1 ++ c :: l2 ∧
        ∀ c' ∈ l1, onlyEndTurn c'.1 c'.2 = true →
          uScore 1 emptyStats 0 c' < uScore 1 emptyStats 0 c :=
  ⟨by decide, C3_selection_ucb_argmax 1 emptyStats 0 onlyEndTurn (by decide)⟩

/-! ## MCTS.py: expansion prior masking (lines 141-145), claim C4 -/

/-- `1` for a legal cell, `0` for an illegal one (the numeric value of the
boolean mask entries produced by `getValidMoves`). -/
def boolQ (b : Bool) : ℚ := if b then 1 else 0

/-- `self.Ps[s] = self.Ps[s]*valids + valids*game_copy.current_decay`
(MCTS.py line 143): the raw oracle prior is zeroed outside the mask and every
legal entry receives the additive `current_decay` floor. -/
def maskPrior (praw : Fin 21 → Fin 18 → ℚ) (valids : Fin 21 → Fin 18 → Bool)
    (decay : ℚ) : Fin 21 → Fin 18 → ℚ :=
  fun a b => praw a b * boolQ (valids a b) + boolQ (valids a b) * decay

/-- `sum_Ps_s = np.sum(self.Ps[s])` (MCTS.py line 144). -/
def sumPrior (p : Fin 21 → Fin 18 → ℚ) : ℚ :=
  ∑ a : Fin 21, ∑ b : Fin 18, p a b

/-- `self.Ps[s] /= sum_Ps_s` (MCTS.py line 145): the masked prior cached for
the expanded node. -/
def normPrior (praw : Fin 21 → Fin 18 → ℚ) (valids : Fin 21 → Fin 18 → Bool)
    (decay : ℚ) : Fin 21 → Fin 18 → ℚ :=
  fun a b =>
    maskPrior praw valids decay a b / sumPrior (maskPrior praw valids decay)

lemma maskPrior_nonneg (praw : Fin 21 → Fin 18 → ℚ)
    (valids : Fin 21 → Fin 18 → Bool) (decay : ℚ)
    (hp : ∀ a b, 0 ≤ praw a b) (hd : 0 < decay) (a : Fin 21) (b : Fin 18) :
    0 ≤ maskPrior praw valids decay a b := by
  unfold maskPrior boolQ
  rcases hv : valids a b <;> simp [hv]
  have h1 := hp a b
  linarith

lemma sumPrior_pos (praw : Fin 21 → Fin 18 → ℚ)
    (valids : Fin 21 → Fin 18 → Bool) (decay : ℚ)
    (hp : ∀ a b, 0 ≤ praw a b) (hd : 0 < decay)
    (hv : ∃ a b, valids a b = true) :
    0 < sumPrior (maskPrior praw valids decay) := by
  obtain ⟨a0, b0, hv0⟩ := hv
  have hcell : 0 < maskPrior praw valids decay a0 b0 := by
    unfold maskPrior boolQ
    rw [hv0]
    simp
    have h1 := hp a0 b0
    linarith
  have hinner : ∀ a : Fin 21, 0 ≤ ∑ b : Fin 18, maskPrior praw valids decay a b :=
    fun a => Finset.sum_nonneg fun b _ =>
      maskPrior_nonneg praw valids decay hp hd a b
  have h1 : ∑ b : Fin 18, maskPrior praw valids decay a0 b > 0 := by
    refine lt_of_lt_of_le hcell ?_
    exact Finset.single_le_sum
      (fun b _ => maskPrior_nonneg praw valids decay hp hd a0 b)
      (Finset.mem_univ b0)
  unfold sumPrior
  refine lt_of_lt_of_le h1 ?_
  exact Finset.single_le_sum (fun a _ => hinner a) (Finset.mem_univ a0)

/-- Claim C4: at expansion of a non-terminal, uncached node the oracle's raw
prior is masked by the legal-move mask so that every illegal entry is zero,
every legal entry with zero raw probability still receives the positive
decay-weighted floor, and the cached prior sums to one (hence to one over the
legal actions, the illegal ones contributing nothing). -/
theorem C4_expansion_prior_masking (praw : Fin 21 → Fin 18 → ℚ)
    (valids : Fin 21 → Fin 18 → Bool) (decay : ℚ)
    (hp : ∀ a b, 0 ≤ praw a b) (hd : 0 < decay)
    (hv : ∃ a b, valids a b = true) :
    (∀ a b, valids a b = false → normPrior praw valids decay a b = 0) ∧
    (∀ a b, valids a b = true → praw a b = 0 →
      0 < normPrior praw valids decay a b) ∧
    sumPrior (normPrior praw valids decay) = 1 := by
  have hS : 0 < sumPrior (maskPrior praw valids decay) :=
    sumPrior_pos praw valids decay hp hd hv
  refine ⟨?_, ?_, ?_⟩
  · intro a b hab
    unfold normPrior maskPrior boolQ
    rw [hab]
    simp
  · intro a b hab hz
    unfold normPrior
    apply div_pos _ hS
    unfold maskPrior boolQ
    rw [hab, hz]
    simpa using hd
  · have hSne : sumPrior (maskPrior praw valids decay) ≠ 0 := ne_of_gt hS
    have hstep : ∀ a : Fin 21,
        (∑ b : Fin 18, normPrior praw valids decay a b) =
          (∑ b : Fin 18, maskPrior praw valids decay a b) /
            sumPrior (maskPrior praw valids decay) := by
      intro a
      simp only [normPrior]
      rw [← Finset.sum_div]
    have h2 : sumPrior (normPrior praw valids decay) =
        ∑ a : Fin 21, ∑ b : Fin 18, normPrior praw valids decay a b := rfl
    have h3 : sumPrior (maskPrior praw valids decay) =
        ∑ a : Fin 21, ∑ b : Fin 18, maskPrior praw valids decay a b := rfl
    rw [h2, Finset.sum_congr rfl fun a _ => hstep a, ← Finset.sum_div, ← h3,
      div_self hSne]

/-- The all-zero raw prior used as a concrete oracle output in witnesses. -/
def zeroPrior : Fin 21 → Fin 18 → ℚ := fun _ _ => 0

/-- Witness for C4: an all-zero raw prior, unit decay and the mask allowing
only `(19, 1)`: the renormalized prior is the one-hot on the end-turn cell. -/
theorem C4_expansion_prior_masking_witness :
    (∀ a b, (0 : ℚ) ≤ zeroPrior a b) ∧ ((0 : ℚ) < 1) ∧
    (∃ a b, onlyEndTurn a b = true) ∧
    ((∀ a b, onlyEndTurn a b = false →
        normPrior zeroPrior onlyEndTurn 1 a b = 0) ∧
      (∀ a b, onlyEndTurn a b = true → zeroPrior a b = 0 →
        0 < normPrior zeroPrior onlyEndTurn 1 a b) ∧
      sumPrior (normPrior zeroPrior onlyEndTurn 1) = 1) :=
  ⟨fun _ _ => le_refl 0, one_pos, ⟨19, 1, by decide⟩,
    C4_expansion_prior_masking zeroPrior onlyEndTurn 1
      (fun _ _ => le_refl 0) one_pos ⟨19, 1, by decide⟩⟩

/-! ## MCTS.py: `getActionProb` (lines 27-49), claim C5 -/

/-- `counts = [self.Nsa[(s,(a,b))] if (s,(a,b)) in self.Nsa else 0 for a in
range(21) for b in range(18)]` (MCTS.py line 41): the root edge visit counts in
row-major order. -/
def rootCounts (nsa : SKey × HAction → Option ℕ) (s : SKey) : List ℕ :=
  gridCells.map fun c => (nsa (s, c)).getD 0

/-- `np.argmax` on a list of naturals: the index of the first maximal entry. -/
def argmaxFirst (l : List ℕ) : ℕ := l.indexOf (l.foldr max 0)

/-- The post-simulation part of `MCTS.getActionProb` (MCTS.py lines 39-49),
taking the edge-visit table `Nsa` left by the simulations: at `temp == 0`,
the one-hot on `np.argmax(counts)`; otherwise `counts` raised elementwise to
`1/temp` and divided by their sum. -/
noncomputable def getActionProb (nsa : SKey × HAction → Option ℕ) (s : SKey)
    (temp : ℝ) : List ℝ :=
  let counts := rootCounts nsa s
  if temp = 0 then
    (List.range counts.length).map fun i =>
      if i = argmaxFirst counts then 1 else 0
  else
    let w := counts.map fun (x : ℕ) => (x : ℝ) ^ (1 / temp)
    w.map fun x => x / w.sum

/-- The empty visit table: no simulation has recorded any root edge. -/
def noVisits : SKey × HAction → Option ℕ := fun _ => none

lemma foldrMax_mem : ∀ l : List ℕ, l ≠ [] → l.foldr max 0 ∈ l := by
  intro l
  induction l with
  | nil => intro h; exact absurd rfl h
  | cons a t ih =>
      intro _
      cases t with
      | nil => simp
      | cons b t' =>
          rcases le_total (List.foldr max 0 (b :: t')) a with h | h
          · rw [List.foldr_cons, max_eq_left h]
            exact List.mem_cons_self _ _
          · rw [List.foldr_cons, max_eq_right h]
            exact List.mem_cons_of_mem _ (ih (by simp))

lemma le_foldrMax : ∀ (l : List ℕ), ∀ x ∈ l, x ≤ l.foldr max 0 := by
  intro l
  induction l with
  | nil => intro x hx; cases hx
  | cons a t ih =>
      intro x hx
      rcases List.mem_cons.mp hx with rfl | hmem
      · exact le_max_left _ _
      · exact le_trans (ih x hmem) (le_max_right _ _)

lemma sum_pos_exists : ∀ l : List ℕ, 0 < l.sum → ∃ x ∈ l, 0 < x := by
  intro l
  induction l with
  | nil => intro h; simp at h
  | cons a t ih =>
      intro h
      rcases Nat.eq_zero_or_pos a with ha | ha
      · rw [List.sum_cons, ha, Nat.zero_add] at h
        obtain ⟨x, hx, hxp⟩ := ih h
        exact ⟨x, List.mem_cons_of_mem _ hx, hxp⟩
      · exact ⟨a, List.mem_cons_self _ _, ha⟩

lemma getD_ne_of_lt_indexOf {α : Type _} [DecidableEq α] :
    ∀ (l : List α) (a d : α) (i : ℕ), i < l.indexOf a → l.getD i d ≠ a := by
  intro l
  induction l with
  | nil => intro a d i h; simp [List.indexOf] at h
  | cons b t ih =>
      intro a d i h
      by_cases hb : b = a
      · rw [List.indexOf_cons_eq t hb] at h; cases h
      · rw [List.indexOf_cons_ne t hb] at h
        cases i with
        | zero => simpa using hb
        | succ j =>
            rw [List.getD_cons_succ]
            exact ih a d j (Nat.lt_of_succ_lt_succ h)

lemma list_sum_map_div (l : List ℝ) (c : ℝ) :
    (l.map fun x => x / c).sum = l.sum / c := by
  induction l with
  | nil => simp
  | cons a t ih => simp [ih, add_div]

lemma list_sum_pos_of_mem (l : List ℝ) (x : ℝ) (hx : x ∈ l) (hpos : 0 < x)
    (hall : ∀ y ∈ l, 0 ≤ y) : 0 < l.sum := by
  induction l with
  | nil => cases hx
  | cons a t ih =>
      rw [List.sum_cons]
      rcases List.mem_cons.mp hx with rfl | hmem
      · have ht : 0 ≤ t.sum :=
          List.sum_nonneg fun y hy => hall y (List.mem_cons_of_mem _ hy)
        linarith
      · have ha : 0 ≤ a := hall a (List.mem_cons_self _ _)
        have := ih hmem fun y hy => hall y (List.mem_cons_of_mem _ hy)
        linarith

set_option maxRecDepth 8000 in
/-- Counterexample to claim C5: with an empty visit table (reachable after one
simulation, whose path is empty because the root is only being expanded) and
temperature `0`, `np.argmax` of the all-zero counts is index `0`, so the
returned vector puts probability `1` on the very first action of the grid even
though its visit count is `0` -- mass on an action never explored. -/
theorem C5_counterexample :
    (getActionProb noVisits 0 0).getD 0 0 = 1 ∧
    (rootCounts noVisits 0).getD 0 0 = 0 := by
  refine ⟨?_, by decide⟩
  have hm : argmaxFirst (rootCounts noVisits 0) = 0 := by decide
  simp only [getActionProb]
  rw [if_pos trivial]
  have hlen : (0 : ℕ) < (rootCounts noVisits 0).length := by decide
  rw [List.getD_eq_getElem _ _ (by simpa using hlen)]
  rw [List.getElem_map, List.getElem_range, hm]
  simp

/-- Claim C5 (amended): provided at least one root edge has been visited (the
total of the root counts is positive), `getActionProb` with temperature `0`
returns the one-hot vector on the first most-visited action of the row-major
scan (a strictly-less count at every earlier index, a positive count there),
and with temperature `t > 0` returns each count raised to `1/t` and normalized:
a probability vector with zero mass on every unvisited action.  Without a
visited root edge the claim fails (see the counterexample): the one-hot lands
on the unexplored first cell, and the `t > 0` division is by zero. -/
theorem C5_action_probabilities (nsa : SKey × HAction → Option ℕ) (s : SKey)
    (temp : ℝ) (hpos : 0 < (rootCounts nsa s).sum) :
    (temp = 0 →
      (getActionProb nsa s temp).length = (rootCounts nsa s).length ∧
      (getActionProb nsa s temp).getD (argmaxFirst (rootCounts nsa s)) 0 = 1 ∧
      (∀ i < (rootCounts nsa s).length, i ≠ argmaxFirst (rootCounts nsa s) →
        (getActionProb nsa s temp).getD i 0 = 0) ∧
      (∀ x ∈ rootCounts nsa s,
        x ≤ (rootCounts nsa s).getD (argmaxFirst (rootCounts nsa s)) 0) ∧
      (∀ i < argmaxFirst (rootCounts nsa s),
        (rootCounts nsa s).getD i 0 <
          (rootCounts nsa s).getD (argmaxFirst (rootCounts nsa s)) 0) ∧
      0 < (rootCounts nsa s).getD (argmaxFirst (rootCounts nsa s)) 0) ∧
    (0 < temp →
      (getActionProb nsa s temp).length = (rootCounts nsa s).length ∧
      (getActionProb nsa s temp).sum = 1 ∧
      (∀ i, 0 ≤ (getActionProb nsa s temp).getD i 0) ∧
      (∀ i < (rootCounts nsa s).length, (rootCounts nsa s).getD i 0 = 0 →
        (getActionProb nsa s temp).getD i 0 = 0)) := by
  have hne : rootCounts nsa s ≠ [] := by
    intro hempty
    rw [hempty] at hpos
    simp at hpos
  have hmem : (rootCounts nsa s).foldr max 0 ∈ rootCounts nsa s :=
    foldrMax_mem _ hne
  have hidx : argmaxFirst (rootCounts nsa s) < (rootCounts nsa s).length :=
    List.indexOf_lt_length.mpr hmem
  have hmaxval : (rootCounts nsa s).getD (argmaxFirst (rootCounts nsa s)) 0 =
      (rootCounts nsa s).foldr max 0 := by
    rw [List.getD_eq_getElem _ _ hidx]
    exact List.indexOf_get hidx
  constructor
  · intro ht
    subst ht
    simp only [getActionProb]
    rw [if_pos trivial]
    refine ⟨by simp, ?_, ?_, ?_, ?_, ?_⟩
    · rw [List.getD_eq_getElem _ _ (by simpa using hidx)]
      rw [List.getElem_map, List.getElem_range]
      simp
    · intro i hi hne'
      rw [List.getD_eq_getElem _ _ (by simpa using hi)]
      rw [List.getElem_map, List.getElem_range]
      simp [hne']
    · intro x hx
      rw [hmaxval]
      exact le_foldrMax _ x hx
    · intro i hi
      have h1 : (rootCounts nsa s).getD i 0 ≠ (rootCounts nsa s).foldr max 0 :=
        getD_ne_of_lt_indexOf _ _ _ i hi
      have h2 : (rootCounts nsa s).getD i 0 ≤ (rootCounts nsa s).foldr max 0 := by
        rcases Nat.lt_or_ge i (rootCounts nsa s).length with hlt | hge
        · rw [List.getD_eq_getElem _ _ hlt]
          exact le_foldrMax _ _ (List.getElem_mem hlt)
        · rw [List.getD_eq_default _ _ hge]
          exact Nat.zero_le _
      rw [hmaxval]
      exact lt_of_le_of_ne h2 h1
    · obtain ⟨x, hx, hxp⟩ := sum_pos_exists _ hpos
      rw [hmaxval]
      exact lt_of_lt_of_le hxp (le_foldrMax _ x hx)
  · intro ht
    have htne : temp ≠ 0 := ne_of_gt ht
    have hexp : (1 : ℝ) / temp ≠ 0 := one_div_ne_zero htne
    simp only [getActionProb]
    rw [if_neg htne]
    have hwnn : ∀ y ∈ (rootCounts nsa s).map fun (x : ℕ) => (x : ℝ) ^ (1 / temp),
        0 ≤ y := by
      intro y hy
      obtain ⟨x, _, rfl⟩ := List.mem_map.mp hy
      exact Real.rpow_nonneg (Nat.cast_nonneg x) _
    have hS : 0 < ((rootCounts nsa s).map fun (x : ℕ) => (x : ℝ) ^ (1 / temp)).sum := by
      obtain ⟨x, hx, hxp⟩ := sum_pos_exists _ hpos
      refine list_sum_pos_of_mem _ ((x : ℝ) ^ (1 / temp))
        (List.mem_map_of_mem _ hx) ?_ hwnn
      exact Real.rpow_pos_of_pos (by exact_mod_cast hxp) _
    refine ⟨by simp, ?_, ?_, ?_⟩
    · rw [list_sum_map_div]
      exact div_self (ne_of_gt hS)
    · intro i
      rcases Nat.lt_or_ge i
          (((rootCounts nsa s).map fun (x : ℕ) => (x : ℝ) ^ (1 / temp)).map
            fun x => x /
              ((rootCounts nsa s).map fun (x : ℕ) => (x : ℝ) ^ (1 / temp)).sum).length
          with hlt | hge
      · rw [List.getD_eq_getElem _ _ hlt]
        simp only [List.getElem_map]
        refine div_nonneg ?_ hS.le
        exact Real.rpow_nonneg (Nat.cast_nonneg _) _
      · rw [List.getD_eq_default _ _ hge]
    · intro i hi hzero
      have hi' : i < (((rootCounts nsa s).map fun (x : ℕ) => (x : ℝ) ^ (1 / temp)).map
          fun x => x /
            ((rootCounts nsa s).map fun (x : ℕ) => (x : ℝ) ^ (1 / temp)).sum).length := by
        simpa using hi
      rw [List.getD_eq_getElem _ _ hi']
      simp only [List.getElem_map]
      have hcast : (((rootCounts nsa s).getD i 0 : ℕ) : ℝ) = 0 := by
        rw [hzero]; norm_num
      rw [List.getD_eq_getElem _ _ hi] at hzero
      rw [hzero]
      rw [Nat.cast_zero, Real.zero_rpow hexp, zero_div]

/-- Visit table in which three simulations have traversed the root end-turn
edge `(19, 1)` (root fingerprint `0`). -/
def demoNsa : SKey × HAction → Option ℕ :=
  upd noVisits (0, ((19 : Fin 21), (1 : Fin 18))) 3

set_option maxRecDepth 8000 in
/-- Witness for C5 (amended), at temperature 1 on a table with one visited
root edge. -/
theorem C5_action_probabilities_witness :
    (0 < (rootCounts demoNsa 0).sum) ∧
    (((1 : ℝ) = 0 →
      (getActionProb demoNsa 0 1).length = (rootCounts demoNsa 0).length ∧
      (getActionProb demoNsa 0 1).getD (argmaxFirst (rootCounts demoNsa 0)) 0
        = 1 ∧
      (∀ i < (rootCounts demoNsa 0).length,
        i ≠ argmaxFirst (rootCounts demoNsa 0) →
        (getActionProb demoNsa 0 1).getD i 0 = 0) ∧
      (∀ x ∈ rootCounts demoNsa 0,
        x ≤ (rootCounts demoNsa 0).getD (argmaxFirst (rootCounts demoNsa 0)) 0) ∧
      (∀ i < argmaxFirst (rootCounts demoNsa 0),
        (rootCounts demoNsa 0).getD i 0 <
          (rootCounts demoNsa 0).getD (argmaxFirst (rootCounts demoNsa 0)) 0) ∧
      0 < (rootCounts demoNsa 0).getD (argmaxFirst (rootCounts demoNsa 0)) 0) ∧
    ((0 : ℝ) < 1 →
      (getActionProb demoNsa 0 1).length = (rootCounts demoNsa 0).length ∧
      (getActionProb demoNsa 0 1).sum = 1 ∧
      (∀ i, 0 ≤ (getActionProb demoNsa 0 1).getD i 0) ∧
      (∀ i < (rootCounts demoNsa 0).length,
        (rootCounts demoNsa 0).getD i 0 = 0 →
        (getActionProb demoNsa 0 1).getD i 0 = 0))) :=
  ⟨by decide, C5_action_probabilities demoNsa 0 1 (by decide)⟩

/-! ## MCTS.py: one full simulation `MCTS.search` (lines 75-180), claim C1 -/

/-- The collaborators one `MCTS.search` call reads, abstracted over the
fireplace game-object type `G`: the determinizer input (`clone` =
`cloneAndRandomize`, line 98), the Environment Adapter (`valid` =
`getValidMoves`, `step` = the mutation `getNextState(1, act, game_copy)`
performs, `encode` = `stringRepresentation(getState(...))`, `gameEnded` =
`getGameEnded` with its possible mutation of the instance), the game-object
fields `ended`, `current_player`, `player_to_start`, `current_decay`, the
oracle `nnet.predict` split into prior and value, and the rollout RNG
`rollPick` = `random.choice(np.argwhere(valids))` (`none` when no cell is
legal and `random.choice` raises). -/
structure Env (G : Type _) where
  clone : G → G
  valid : G → Fin 21 → Fin 18 → Bool
  step : G → HAction → G
  encode : G → SKey
  ended : G → Bool
  curPlayer : G → ℤ
  p2s : G → ℤ
  decay : G → ℚ
  predictP : SKey → Fin 21 → Fin 18 → ℚ
  predictV : SKey → ℚ
  gameEnded : G → G × ℚ
  rollPick : G → Option HAction

/-- Selection loop of `MCTS.search` (MCTS.py lines 107-133): while the current
fingerprint has no cached terminal value, has a cached prior, and the clone has
not ended, scan for the best UCB action, apply it, record
`(s, best_act, player)` and advance.  `none` models the crash when no cell is
legal (`best_act` stays `-1` and `getNextState` raises on `a[0]`); the
`except GameOver: break` of line 127 is unreachable because `getNextState`
already swallows `GameOver` (see `getNextStateM`).  The fuel only bounds the
loop for the embedding; exhaustion exits early (the source has no bound). -/
noncomputable def selectPhase {G : Type _} (env : Env G) (cpuct : ℝ)
    (st : Stats) :
    ℕ → G → SKey → List (SKey × HAction × ℤ) →
      Option (G × SKey × List (SKey × HAction × ℤ))
  | 0, g, s, path => some (g, s, path)
  | fuel + 1, g, s, path =>
      if (st.Es s).isNone && (st.Ps s).isSome && !env.ended g then
        match selectBest (env.valid g) cpuct st s with
        | none => none
        | some bc =>
            let player := env.curPlayer g
            let g' := env.step g bc.2
            selectPhase env cpuct st fuel g' (env.encode g')
              (path ++ [(s, bc.2, player)])
      else some (g, s, path)

/-- Rollout loop of `MCTS.search` (MCTS.py lines 153-161): while the reached
fingerprint has no cached terminal value and the clone has not ended, apply a
uniformly random legal action.  It writes no statistics. -/
noncomputable def rolloutPhase {G : Type _} (env : Env G) (st : Stats) :
    ℕ → G → SKey → Option (G × SKey)
  | 0, g, s => some (g, s)
  | fuel + 1, g, s =>
      if (st.Es s).isNone && !env.ended g then
        match env.rollPick g with
        | none => none
        | some act =>
            let g' := env.step g act
            rolloutPhase env st fuel g' (env.encode g')
      else some (g, s)

/-- MCTS.py line 135: `if game_copy.ended: self.Es[s] =
self.game.getGameEnded(game_copy)` (the call may itself mutate the clone). -/
noncomputable def markTerminal {G : Type _} (env : Env G) (g : G) (s : SKey)
    (st : Stats) : Stats :=
  if env.ended g then { st with Es := upd st.Es s (env.gameEnded g).2 } else st

/-- Statistics effect of the expansion block (MCTS.py lines 139-148): on a
leaf (`s` neither in `Es` nor in `Ps`) cache the masked renormalized prior,
the validity mask, and *initialize the node visit count to zero* -- the only
write to `Ns` anywhere in MCTS.py. -/
noncomputable def expandStats {G : Type _} (env : Env G) (g : G) (s : SKey)
    (st : Stats) : Stats :=
  if (st.Es s).isNone && (st.Ps s).isNone then
    { st with
      Ps := upd st.Ps s
        (normPrior (env.predictP s) (env.valid g) (env.decay g)),
      Vs := upd st.Vs s (env.valid g),
      Ns := upd st.Ns s 0 }
  else st

/-- Value produced by the expansion block (MCTS.py lines 141 and 149-150):
the oracle value, negated when the clone's current player is not
`player_to_start`.  The `0` of the other branch stands for Python's
still-unassigned `v`; every source path that skips expansion either has `s` in
`Es` (the value is overwritten at line 166) or is the fuel-exhaustion exit this
embedding adds. -/
noncomputable def expandValue {G : Type _} (env : Env G) (g : G) (s : SKey)
    (st : Stats) : ℚ :=
  if (st.Es s).isNone && (st.Ps s).isNone then
    (if env.curPlayer g ≠ env.p2s g then -(env.predictV s) else env.predictV s)
  else 0

/-- One full call of `MCTS.search(state, create_copy=True)` (MCTS.py lines
75-180): determinize, select, mark the terminal fingerprint, expand, roll out,
blend `v = 0.7*v + 0.3*getGameEnded(...)` when the rollout reached a game end
on an uncached fingerprint, override `v` by the cached terminal value when
present, and backpropagate along the recorded path.  Returns the updated
statistics together with `some v` (the Python function falls off its end;
`none` flags the crashes modelled in the two loops, with the statistics
mutated so far -- dictionary writes are not rolled back by an exception). -/
noncomputable def searchSim {G : Type _} (env : Env G) (cpuct : ℝ)
    (fuelS fuelR : ℕ) (st0 : Stats) (g0 : G) (s0 : SKey) :
    Stats × Option ℚ :=
  let g := env.clone g0
  match selectPhase env cpuct st0 fuelS g s0 [] with
  | none => (st0, none)
  | some gsp =>
      let g1 := gsp.1
      let s := gsp.2.1
      let path := gsp.2.2
      let st1 := markTerminal env g1 s st0
      let g2 := if env.ended g1 then (env.gameEnded g1).1 else g1
      let st2 := expandStats env g2 s st1
      let v1 := expandValue env g2 s st1
      match rolloutPhase env st2 fuelR g2 s with
      | none => (st2, none)
      | some gs =>
          let blend := (st2.Es gs.2).isNone && env.ended gs.1
          let v2 := if blend then
              (7 : ℚ) / 10 * v1 + 3 / 10 * (env.gameEnded gs.1).2
            else v1
          let g4 := if blend then (env.gameEnded gs.1).1 else gs.1
          let v3 := match st2.Es gs.2 with
            | some e => e
            | none => v2
          (backprop (env.p2s g4) v3 path st2, some v3)

lemma markTerminal_Ns {G : Type _} (env : Env G) (g : G) (s : SKey)
    (st : Stats) : (markTerminal env g s st).Ns = st.Ns := by
  unfold markTerminal
  split <;> rfl

lemma expandStats_Ns {G : Type _} (env : Env G) (g : G) (s : SKey)
    (st : Stats) (k : SKey) :
    (expandStats env g s st).Ns k = st.Ns k ∨
    (expandStats env g s st).Ns k = some 0 := by
  unfold expandStats
  split
  · by_cases hk : k = s
    · subst hk
      exact Or.inr (upd_same _ _ _)
    · exact Or.inl (upd_other _ _ _ _ hk)
  · exact Or.inl rfl

lemma backprop_Ns (p2s : ℤ) (v : ℚ) :
    ∀ (path : List (SKey × HAction × ℤ)) (st : Stats),
      (backprop p2s v path st).Ns = st.Ns := by
  intro path
  induction path with
  | nil => intro st; rfl
  | cons e rest ih =>
      intro st
      calc (backprop p2s v (e :: rest) st).Ns
          = (backprop p2s v rest (backpropStep p2s v st e)).Ns := rfl
        _ = (backpropStep p2s v st e).Ns := ih _
        _ = st.Ns := rfl

/-- A concrete two-state world for evaluating the model: state `0` is live
with the end-turn cell `(19, 1)` as its only legal action, stepping any action
reaches state `1`, which is terminal; the clone is the identity, both player
fields are `1`, the decay is `1`, the oracle returns the all-zero prior and
value `1/2`, and `getGameEnded` reports `1/2` without further mutation. -/
noncomputable def demoEnv : Env ℕ :=
  { clone := id,
    valid := fun _ => onlyEndTurn,
    step := fun g _ => g + 1,
    encode := fun g => g,
    ended := fun g => decide (1 ≤ g),
    curPlayer := fun _ => 1,
    p2s := fun _ => 1,
    decay := fun _ => 1,
    predictP := fun _ => zeroPrior,
    predictV := fun _ => 1 / 2,
    gameEnded := fun g => (g, 1 / 2),
    rollPick := fun _ => some ((19 : Fin 21), (1 : Fin 18)) }

set_option maxRecDepth 100000 in
/-- Claim C1 is violated by the code: `MCTS.search` never increments `Ns`.
The only write to `Ns` in MCTS.py is `self.Ns[s] = 0` at expansion (line 148),
so across any single simulation every node's visit count is either untouched
or (re)set to `0` -- first conjunct, over every environment.  In particular
(second conjunct) after two simulations of the concrete `demoEnv` world from a
fresh root (the root is expanded by the first and traversed by the second),
the root's `Ns` is `0`, not the simulation count `2` the claim requires. -/
theorem C1_root_visit_count_never_incremented :
    (∀ (G : Type) (env : Env G) (cpuct : ℝ) (fuelS fuelR : ℕ) (st : Stats)
        (g : G) (s k : SKey),
      (searchSim env cpuct fuelS fuelR st g s).1.Ns k = st.Ns k ∨
      (searchSim env cpuct fuelS fuelR st g s).1.Ns k = some 0) ∧
    ((searchSim demoEnv 1 4 4
        ((searchSim demoEnv 1 4 4 emptyStats 0 0).1) 0 0).1.Ns 0 = some 0 ∧
      (searchSim demoEnv 1 4 4
        ((searchSim demoEnv 1 4 4 emptyStats 0 0).1) 0 0).1.Ns 0 ≠ some 2) := by
  constructor
  · intro G env cpuct fuelS fuelR st g s k
    unfold searchSim
    rcases hsel : selectPhase env cpuct st fuelS (env.clone g) s [] with _ | gsp
    · simp only [hsel]
      exact Or.inl trivial
    · simp only [hsel]
      rcases hroll : rolloutPhase env
          (expandStats env
            (if env.ended gsp.1 then (env.gameEnded gsp.1).1 else gsp.1)
            gsp.2.1 (markTerminal env gsp.1 gsp.2.1 st)) fuelR
          (if env.ended gsp.1 then (env.gameEnded gsp.1).1 else gsp.1)
          gsp.2.1 with _ | gs
      · simp only [hroll]
        have h2 := expandStats_Ns env
          (if env.ended gsp.1 then (env.gameEnded gsp.1).1 else gsp.1)
          gsp.2.1 (markTerminal env gsp.1 gsp.2.1 st) k
        rw [markTerminal_Ns] at h2
        exact h2
      · simp only [hroll, backprop_Ns]
        have h2 := expandStats_Ns env
          (if env.ended gsp.1 then (env.gameEnded gsp.1).1 else gsp.1)
          gsp.2.1 (markTerminal env gsp.1 gsp.2.1 st) k
        rw [markTerminal_Ns] at h2
        exact h2
  · constructor
    · decide
    · decide

end HSAI
